import Mathlib

/-!
Shallow embedding of the `embtk-rotary-encoder` crate (`src/lib.rs`).

The crate exposes one generic struct `RotaryEncoder<Pos, Tick, Delta>` with a
constructor `new` and a single stateful operation `get_delta`.  The numeric
model used here:

* `Pos` (the raw position): a fixed-width integer of `wp` bits, signed when
  `ps = true`.  A `Pos` value is represented by its canonical bit pattern, an
  `Int` in `[0, 2^wp)`; the source's `wrapping_add` / `wrapping_sub` are
  arithmetic modulo `2^wp` on patterns.  An arbitrary `Int` argument stands
  for the `Pos` value with pattern `raw_position % 2^wp`.
* `Tick` (the timestamp): an unsigned `wt`-bit integer represented as a `Nat`
  below `2^wt`.  The source's `+` on `Tick` wraps modulo `2^wt` (release /
  embedded semantics of integer overflow), and `checked_sub` returns `none`
  exactly when the subtrahend exceeds the minuend.
* `Delta`: a signed `wd`-bit integer represented as an `Int` in
  `[-2^(wd-1), 2^(wd-1))`.  The source's `/` and `%` on `Delta` are Rust's
  truncating division and remainder, i.e. `Int.tdiv` and `Int.tmod`.
* The `as`-casts of the `AsPrimitive` bounds become `posToDelta`
  (`Pos → Delta`: reduce the value modulo `2^wd` and reinterpret as a signed
  `wd`-bit quantity) and `deltaToPos` (`Delta → Pos`: truncate to the low
  `wp` bits of the two's complement pattern).
-/

/-- Signed reinterpretation of a `w`-bit pattern `p ∈ [0, 2^w)`:
two's complement decoding. -/
def toSigned (w : Nat) (p : Int) : Int :=
  if p < 2 ^ (w - 1) then p else p - 2 ^ w

/-- Rust `as`-cast from `Pos` (bit pattern `p`, signedness `ps`, width `wp`)
to the signed `wd`-bit `Delta` type: take the numeric value of `p`, truncate
its two's complement representation to `wd` bits, and decode as signed. -/
def posToDelta (ps : Bool) (wp wd : Nat) (p : Int) : Int :=
  toSigned wd ((if ps then toSigned wp p else p) % 2 ^ wd)

/-- Rust `as`-cast from the signed `Delta` type to `Pos`: the low `wp` bits
of the two's complement representation, as a canonical pattern. -/
def deltaToPos (wp : Nat) (d : Int) : Int := d % 2 ^ wp

/-- `Pos::wrapping_sub` on canonical bit patterns. -/
def posWrapSub (wp : Nat) (a b : Int) : Int := (a - b) % 2 ^ wp

/-- `Pos::wrapping_add` on canonical bit patterns. -/
def posWrapAdd (wp : Nat) (a b : Int) : Int := (a + b) % 2 ^ wp

/-- `Tick` addition: wraps modulo `2^wt`. -/
def tickAdd (wt : Nat) (a b : Nat) : Nat := (a + b) % 2 ^ wt

/-- `Tick::checked_sub`: `none` exactly when the subtrahend exceeds the
minuend. -/
def checked_sub (a b : Nat) : Option Nat :=
  if b ≤ a then some (a - b) else none

/-- State of `RotaryEncoder<Pos, Tick, Delta>` (`src/lib.rs`, lines 55-61).
Positions are canonical `wp`-bit patterns, ticks are `Nat` below `2^wt`,
`div` is a `Delta` value. -/
structure RotaryEncoder where
  last_active : Nat
  last_effective_raw_position : Int
  last_real_raw_position : Int
  reset_timeout : Nat
  div : Int

namespace RotaryEncoder

/-- `RotaryEncoder::new` (`src/lib.rs`, lines 69-77): all position and
timestamp fields start at their `Default` value, i.e. zero. -/
def new (div : Int) (reset_timeout : Nat) : RotaryEncoder :=
  { last_active := 0
    last_effective_raw_position := 0
    last_real_raw_position := 0
    reset_timeout := reset_timeout
    div := div }

/-- The staleness condition of `get_delta` (`src/lib.rs`, line 83): the
re-reference branch is taken when
`(last_active + reset_timeout).checked_sub(ts)` is `None`. -/
def timedOut (wt : Nat) (e : RotaryEncoder) (ts : Nat) : Prop :=
  checked_sub (tickAdd wt e.last_active e.reset_timeout) ts = none

instance (wt : Nat) (e : RotaryEncoder) (ts : Nat) :
    Decidable (timedOut wt e ts) := by
  unfold timedOut; infer_instance

/-- `RotaryEncoder::get_delta` (`src/lib.rs`, lines 81-98), translated line
by line.  `raw` is the canonical pattern of the `Pos` argument. -/
def get_delta (ps : Bool) (wp wd wt : Nat) (e : RotaryEncoder)
    (raw_position : Int) (ts : Nat) : Int × RotaryEncoder :=
  let raw := raw_position % 2 ^ wp
  let e1 := if checked_sub (tickAdd wt e.last_active e.reset_timeout) ts = none
    then { e with last_effective_raw_position := e.last_real_raw_position }
    else e
  let delta := posToDelta ps wp wd (posWrapSub wp raw e1.last_effective_raw_position)
  let divisions := delta.tdiv e1.div
  let remainder := delta.tmod e1.div
  let eff := posWrapAdd wp e1.last_effective_raw_position (deltaToPos wp (delta - remainder))
  let e2 := { e1 with last_effective_raw_position := eff }
  let e3 := if e2.last_real_raw_position ≠ raw
    then { e2 with last_active := ts, last_real_raw_position := raw }
    else e2
  (divisions, e3)

end RotaryEncoder

/-- Run a sequence of `get_delta` calls, collecting the returned deltas. -/
def runEnc (ps : Bool) (wp wd wt : Nat) (e : RotaryEncoder) :
    List (Int × Nat) → List Int
  | [] => []
  | (raw, ts) :: rest =>
    let r := RotaryEncoder.get_delta ps wp wd wt e raw ts
    r.1 :: runEnc ps wp wd wt r.2 rest

/-- State after `n` calls to `get_delta`, where call `k` (`0`-indexed)
passes raw position `raw k` and timestamp `ts k`. -/
def callN (ps : Bool) (wp wd wt : Nat) (raw : Nat → Int) (ts : Nat → Nat)
    (e : RotaryEncoder) : Nat → RotaryEncoder
  | 0 => e
  | n + 1 =>
    (RotaryEncoder.get_delta ps wp wd wt (callN ps wp wd wt raw ts e n)
      (raw n) (ts n)).2

/-- Value returned by call `n` (`0`-indexed) in the same call sequence. -/
def outN (ps : Bool) (wp wd wt : Nat) (raw : Nat → Int) (ts : Nat → Nat)
    (e : RotaryEncoder) (n : Nat) : Int :=
  (RotaryEncoder.get_delta ps wp wd wt (callN ps wp wd wt raw ts e n)
    (raw n) (ts n)).1

/-! ### Arithmetic facts about the two's complement model -/

theorem two_pow_pos (w : Nat) : (0:Int) < 2 ^ w := pow_pos (by norm_num) w

theorem two_pow_le_two_mul (w : Nat) : (2:Int) ^ w ≤ 2 * 2 ^ (w - 1) := by
  cases w with
  | zero => norm_num
  | succ w => rw [pow_succ]; simp; ring_nf; omega

/-- The signed decoding of a `w`-bit pattern lies in `[-2^(w-1), 2^(w-1))`. -/
theorem toSigned_bounds {w : Nat} {p : Int} (h0 : 0 ≤ p) (h1 : p < 2 ^ w) :
    -(2 ^ (w - 1)) ≤ toSigned w p ∧ toSigned w p < 2 ^ (w - 1) := by
  unfold toSigned
  have := two_pow_le_two_mul w
  have := two_pow_pos (w - 1)
  split <;> omega

/-- The signed decoding is congruent to the pattern modulo `2^w`. -/
theorem toSigned_emod (w : Nat) (p : Int) :
    toSigned w p % 2 ^ w = p % 2 ^ w := by
  unfold toSigned
  split
  · rfl
  · exact Int.emod_sub_cancel p (2 ^ w)

/-- Round trip: encoding an in-range signed value as a `w`-bit pattern and
decoding it again is the identity. -/
theorem toSigned_emod_cancel {w : Nat} {d : Int} (hw : 0 < w)
    (h0 : -(2 ^ (w - 1)) ≤ d) (h1 : d < 2 ^ (w - 1)) :
    toSigned w (d % 2 ^ w) = d := by
  obtain ⟨k, rfl⟩ : ∃ k, w = k + 1 := ⟨w - 1, (Nat.succ_pred_eq_of_pos hw).symm⟩
  simp only [Nat.add_sub_cancel] at h0 h1
  have hpow : (2:Int) ^ (k + 1) = 2 * 2 ^ k := by rw [pow_succ]; ring
  have hp1 := two_pow_pos k
  rcases le_or_lt 0 d with hd | hd
  · rw [Int.emod_eq_of_lt hd (by omega)]
    unfold toSigned
    simp only [Nat.add_sub_cancel]
    rw [if_pos h1]
  · have he : d % 2 ^ (k + 1) = d + 2 ^ (k + 1) := by
      have h2 : (d + 2 ^ (k + 1) * 1) % 2 ^ (k + 1) = d % 2 ^ (k + 1) :=
        Int.add_mul_emod_self_left d (2 ^ (k + 1)) 1
      rw [mul_one] at h2
      rw [← h2, Int.emod_eq_of_lt (by omega) (by omega)]
    rw [he]
    unfold toSigned
    simp only [Nat.add_sub_cancel]
    rw [if_neg (by omega)]
    omega

/-- Truncating remainder negates with the dividend. -/
theorem tmod_neg_left (a b : Int) : (-a).tmod b = -(a.tmod b) := by
  rw [Int.tmod_def, Int.tmod_def, Int.neg_tdiv]
  ring

/-- Truncating division by a positive divisor of a value that is too small in
absolute value gives `0`. -/
theorem tdiv_small {a b : Int} (h : a.natAbs < b.natAbs) : a.tdiv b = 0 := by
  have := Int.natAbs_tdiv a b
  have h0 : (a.tdiv b).natAbs = 0 := by
    rw [this]
    exact Nat.div_eq_of_lt h
  exact Int.natAbs_eq_zero.mp h0

/-- Truncating remainder of a value that is too small in absolute value is
the value itself. -/
theorem tmod_small {a b : Int} (h : a.natAbs < b.natAbs) : a.tmod b = a := by
  rw [Int.tmod_def, tdiv_small h]
  ring

/-- The truncating remainder by a positive divisor lies strictly between
`-b` and `b`. -/
theorem tmod_bounds (a : Int) {b : Int} (hb : 0 < b) :
    -b < a.tmod b ∧ a.tmod b < b := by
  rcases le_or_lt 0 a with ha | ha
  · have h1 := Int.tmod_nonneg b ha
    have h2 := Int.tmod_lt_of_pos a hb
    omega
  · have hn : a.tmod b = -((-a).tmod b) := by
      rw [tmod_neg_left, neg_neg]
    have h1 := Int.tmod_nonneg b (by omega : (0:Int) ≤ -a)
    have h2 := Int.tmod_lt_of_pos (-a) hb
    omega

/-- Truncating division does not increase a two-sided bound when the divisor
is positive. -/
theorem tdiv_bounds {a b N : Int} (hb : 0 < b) (h0 : -N ≤ a) (h1 : a < N) :
    -N ≤ a.tdiv b ∧ a.tdiv b < N := by
  rcases le_or_lt 0 a with ha | ha
  · have hd0 : 0 ≤ a.tdiv b := Int.tdiv_nonneg ha (le_of_lt hb)
    have hds : a.tdiv b ≤ a := by
      rw [Int.tdiv_eq_ediv ha (le_of_lt hb)]
      exact Int.ediv_le_self b ha
    omega
  · have hneg : a.tdiv b = -((-a).tdiv b) := by rw [Int.neg_tdiv, neg_neg]
    have hd0 : 0 ≤ (-a).tdiv b := Int.tdiv_nonneg (by omega) (le_of_lt hb)
    have hds : (-a).tdiv b ≤ -a := by
      rw [Int.tdiv_eq_ediv (by omega) (le_of_lt hb)]
      exact Int.ediv_le_self b (by omega)
    omega

/-- Subtracting the truncating remainder (i.e. keeping only the whole
divisions) does not increase a two-sided bound. -/
theorem sub_tmod_bounds {a b N : Int} (hb : 0 < b) (h0 : -N ≤ a) (h1 : a < N) :
    -N ≤ a - a.tmod b ∧ a - a.tmod b < N := by
  rcases le_or_lt 0 a with ha | ha
  · have h2 := Int.tmod_nonneg b ha
    have h3 : b * a.tdiv b ≥ 0 :=
      mul_nonneg (le_of_lt hb) (Int.tdiv_nonneg ha (le_of_lt hb))
    have h4 : a - a.tmod b = b * a.tdiv b := by rw [Int.tmod_def]; ring
    omega
  · have hn : a.tmod b = -((-a).tmod b) := by rw [tmod_neg_left, neg_neg]
    have h2 := Int.tmod_nonneg b (by omega : (0:Int) ≤ -a)
    have h6 : (-a).tmod b ≤ -a := by
      have h7 : 0 ≤ b * (-a).tdiv b :=
        mul_nonneg (le_of_lt hb) (Int.tdiv_nonneg (by omega) (le_of_lt hb))
      rw [Int.tmod_def]
      omega
    omega

theorem checked_sub_eq_none {a b : Nat} : checked_sub a b = none ↔ a < b := by
  unfold checked_sub
  split <;> simp <;> omega

theorem timedOut_iff (wt : Nat) (e : RotaryEncoder) (ts : Nat) :
    RotaryEncoder.timedOut wt e ts ↔ tickAdd wt e.last_active e.reset_timeout < ts := by
  unfold RotaryEncoder.timedOut
  exact checked_sub_eq_none

theorem posWrapSub_emod_left (wp : Nat) (a b : Int) :
    posWrapSub wp (a % 2 ^ wp) b = posWrapSub wp a b := by
  unfold posWrapSub
  rw [Int.sub_emod (a % 2 ^ wp) b, Int.emod_emod_of_dvd a dvd_rfl, ← Int.sub_emod]

theorem get_delta_eq_no_timeout (ps : Bool) (wp wd wt : Nat) (e : RotaryEncoder)
    (raw : Int) (ts : Nat)
    (hnt : ts ≤ tickAdd wt e.last_active e.reset_timeout) :
    RotaryEncoder.get_delta ps wp wd wt e raw ts =
      ((posToDelta ps wp wd (posWrapSub wp raw e.last_effective_raw_position)).tdiv e.div,
       { last_active :=
           if e.last_real_raw_position ≠ raw % 2 ^ wp then ts else e.last_active
         last_effective_raw_position :=
           posWrapAdd wp e.last_effective_raw_position (deltaToPos wp
             (posToDelta ps wp wd (posWrapSub wp raw e.last_effective_raw_position) -
              (posToDelta ps wp wd (posWrapSub wp raw e.last_effective_raw_position)).tmod e.div))
         last_real_raw_position :=
           if e.last_real_raw_position ≠ raw % 2 ^ wp then raw % 2 ^ wp
           else e.last_real_raw_position
         reset_timeout := e.reset_timeout
         div := e.div }) := by
  have hnone : ¬ checked_sub (tickAdd wt e.last_active e.reset_timeout) ts = none := by
    rw [checked_sub_eq_none]
    omega
  unfold RotaryEncoder.get_delta
  simp only [if_neg hnone]
  rw [posWrapSub_emod_left]
  split_ifs <;> rfl

theorem get_delta_eq_timeout (ps : Bool) (wp wd wt : Nat) (e : RotaryEncoder)
    (raw : Int) (ts : Nat)
    (ht : tickAdd wt e.last_active e.reset_timeout < ts) :
    RotaryEncoder.get_delta ps wp wd wt e raw ts =
      ((posToDelta ps wp wd (posWrapSub wp raw e.last_real_raw_position)).tdiv e.div,
       { last_active :=
           if e.last_real_raw_position ≠ raw % 2 ^ wp then ts else e.last_active
         last_effective_raw_position :=
           posWrapAdd wp e.last_real_raw_position (deltaToPos wp
             (posToDelta ps wp wd (posWrapSub wp raw e.last_real_raw_position) -
              (posToDelta ps wp wd (posWrapSub wp raw e.last_real_raw_position)).tmod e.div))
         last_real_raw_position :=
           if e.last_real_raw_position ≠ raw % 2 ^ wp then raw % 2 ^ wp
           else e.last_real_raw_position
         reset_timeout := e.reset_timeout
         div := e.div }) := by
  have hnone : checked_sub (tickAdd wt e.last_active e.reset_timeout) ts = none := by
    rw [checked_sub_eq_none]
    omega
  unfold RotaryEncoder.get_delta
  simp only [if_pos hnone]
  rw [posWrapSub_emod_left]
  split_ifs <;> rfl

theorem posToDelta_bounds (ps : Bool) (wp wd : Nat) (p : Int) :
    -(2 ^ (wd - 1)) ≤ posToDelta ps wp wd p ∧ posToDelta ps wp wd p < 2 ^ (wd - 1) := by
  unfold posToDelta
  have hp := two_pow_pos wd
  exact toSigned_bounds
    (Int.emod_nonneg _ (by omega)) (Int.emod_lt_of_pos _ hp)

theorem posToDelta_eq_min (ps : Bool) (wp wd : Nat) (p : Int)
    (hcast : wd ≤ wp ∨ ps = true) (h0 : 0 ≤ p) (h1 : p < 2 ^ wp) :
    posToDelta ps wp wd p = toSigned (min wp wd) (p % 2 ^ min wp wd) := by
  rcases le_or_lt wd wp with hle | hlt
  · rw [min_eq_right hle]
    unfold posToDelta
    congr 1
    cases ps with
    | false => simp
    | true =>
      simp only [if_pos rfl]
      have hdvd : (2:Int) ^ wd ∣ 2 ^ wp := pow_dvd_pow 2 hle
      calc toSigned wp p % 2 ^ wd
          = toSigned wp p % 2 ^ wp % 2 ^ wd := (Int.emod_emod_of_dvd _ hdvd).symm
        _ = p % 2 ^ wp % 2 ^ wd := by rw [toSigned_emod]
        _ = p % 2 ^ wd := Int.emod_emod_of_dvd _ hdvd
  · have hps : ps = true := hcast.resolve_left (by omega)
    subst hps
    rw [min_eq_left (le_of_lt hlt)]
    rw [Int.emod_eq_of_lt h0 h1]
    unfold posToDelta
    simp only [if_true]
    have hb := toSigned_bounds h0 h1
    have hwd : 0 < wd := by omega
    have hmono : (2:Int) ^ (wp - 1) ≤ 2 ^ (wd - 1) :=
      pow_le_pow_right₀ (by norm_num) (by omega)
    exact toSigned_emod_cancel hwd (by omega) (by omega)

theorem emod_sub_emod_right (M x y : Int) : (x - y % M) % M = (x - y) % M := by
  conv_rhs => rw [Int.sub_emod x y M]
  rw [Int.sub_emod x (y % M) M, Int.emod_emod_of_dvd y dvd_rfl]

theorem emod_add_emod_right (M x y : Int) : (x + y % M) % M = (x + y) % M := by
  conv_rhs => rw [Int.add_emod x y M]
  rw [Int.add_emod x (y % M) M, Int.emod_emod_of_dvd y dvd_rfl]

/-- After advancing the reference by the whole-division part `delta - rem`,
the wrapped distance from `raw` to the new reference is congruent to the
retained remainder, modulo any power of two dividing the position width. -/
theorem ref_advance_emod (wp m : Nat) (hm : m ≤ wp) (raw eff delta rem : Int)
    (hdel : delta % 2 ^ m = (raw - eff) % 2 ^ m) :
    posWrapSub wp raw (posWrapAdd wp eff (deltaToPos wp (delta - rem))) % 2 ^ m
      = rem % 2 ^ m := by
  unfold posWrapSub posWrapAdd deltaToPos
  have hdvd : (2:Int) ^ m ∣ 2 ^ wp := pow_dvd_pow 2 hm
  have h1 : (raw - (eff + (delta - rem) % 2 ^ wp) % 2 ^ wp) % 2 ^ wp
      = (raw - eff - (delta - rem)) % 2 ^ wp := by
    rw [emod_sub_emod_right]
    rw [show raw - (eff + (delta - rem) % 2 ^ wp)
        = raw - eff - (delta - rem) % 2 ^ wp from by ring]
    rw [emod_sub_emod_right]
  rw [h1, Int.emod_emod_of_dvd _ hdvd]
  rw [Int.sub_emod (raw - eff) (delta - rem), ← hdel, ← Int.sub_emod]
  congr 1
  ring

/-- A stationary, in-window call from a state satisfying the
reference-proximity invariant returns `0` and leaves the state unchanged. -/
theorem stationary_call (ps : Bool) (wp wd wt : Nat) (e : RotaryEncoder) (ts : Nat)
    (heff0 : 0 ≤ e.last_effective_raw_position)
    (heff1 : e.last_effective_raw_position < 2 ^ wp)
    (hreal0 : 0 ≤ e.last_real_raw_position)
    (hreal1 : e.last_real_raw_position < 2 ^ wp)
    (hinv : |posToDelta ps wp wd
        (posWrapSub wp e.last_real_raw_position e.last_effective_raw_position)| < e.div)
    (hnt : ts ≤ tickAdd wt e.last_active e.reset_timeout) :
    RotaryEncoder.get_delta ps wp wd wt e e.last_real_raw_position ts = (0, e) := by
  rw [get_delta_eq_no_timeout ps wp wd wt e _ ts hnt]
  set D := posToDelta ps wp wd
    (posWrapSub wp e.last_real_raw_position e.last_effective_raw_position) with hD
  have habs : D.natAbs < e.div.natAbs := by
    have h0 : (0:Int) ≤ |D| := abs_nonneg D
    have hdiv : 0 < e.div := lt_of_le_of_lt h0 hinv
    rw [Int.abs_eq_natAbs] at hinv
    omega
  have htd : D.tdiv e.div = 0 := tdiv_small habs
  have htm : D.tmod e.div = D := tmod_small habs
  have hcan : e.last_real_raw_position % 2 ^ wp = e.last_real_raw_position :=
    Int.emod_eq_of_lt hreal0 hreal1
  have heffcan : e.last_effective_raw_position % 2 ^ wp
      = e.last_effective_raw_position := Int.emod_eq_of_lt heff0 heff1
  simp [htd, htm, hcan, sub_self, deltaToPos, posWrapAdd, heffcan]

/-- Claim C7: literal signed scenarios.  For a fresh tracker with divisor 4,
timeout 10 and 8-bit signed Position, the calls `get_delta(1,1)`,
`get_delta(2,1)`, `get_delta(3,1)`, `get_delta(4,1)` return `0, 0, 0, 1`, and
for another fresh such tracker `get_delta(124,1)`, `get_delta(127,1)`,
`get_delta(-128,1)` return `31, 0, 1`: the wrap from `+127` to `-128`
mid-division produces a unit step, not a large spurious delta. -/
theorem claim_C7 :
    runEnc true 8 8 32 (RotaryEncoder.new 4 10)
      [(1, 1), (2, 1), (3, 1), (4, 1)] = [0, 0, 0, 1] ∧
    runEnc true 8 8 32 (RotaryEncoder.new 4 10)
      [(124, 1), (127, 1), (-128, 1)] = [31, 0, 1] := by
  decide

/-- Claim C1: timeout re-referencing.  For every tracker state whose stored
real position is a canonical pattern, if the raw position is held constant at
`last_real_raw_position` while the timestamp has advanced by more than
`reset_timeout` ticks past `last_active`, the call sets
`last_effective_raw_position := last_real_raw_position`, discarding any
accumulated sub-divisor fractional offset (and, the raw position being held,
returns `0` and leaves every other field unchanged), so that the next real
movement is measured from the held raw position. -/
theorem claim_C1 (ps : Bool) (wp wd wt : Nat) (e : RotaryEncoder) (ts : Nat)
    (hreal0 : 0 ≤ e.last_real_raw_position)
    (hreal1 : e.last_real_raw_position < 2 ^ wp)
    (hts : e.last_active + e.reset_timeout < ts) :
    RotaryEncoder.get_delta ps wp wd wt e e.last_real_raw_position ts =
      (0, { e with last_effective_raw_position := e.last_real_raw_position }) := by
  have htick : tickAdd wt e.last_active e.reset_timeout < ts := by
    unfold tickAdd
    have := Nat.mod_le (e.last_active + e.reset_timeout) (2 ^ wt)
    omega
  rw [get_delta_eq_timeout ps wp wd wt e _ ts htick]
  have hq : posWrapSub wp e.last_real_raw_position e.last_real_raw_position = 0 := by
    unfold posWrapSub
    simp
  have hd0 : posToDelta ps wp wd 0 = 0 := by
    unfold posToDelta toSigned
    cases ps <;> simp [two_pow_pos]
  have hcan : e.last_real_raw_position % 2 ^ wp = e.last_real_raw_position :=
    Int.emod_eq_of_lt hreal0 hreal1
  simp [hq, hd0, hcan, deltaToPos, posWrapAdd]

theorem claim_C1_witness :
    ((0:Int) ≤ (⟨5, 3, 7, 2, 4⟩ : RotaryEncoder).last_real_raw_position ∧
     (⟨5, 3, 7, 2, 4⟩ : RotaryEncoder).last_real_raw_position < 2 ^ 8 ∧
     (⟨5, 3, 7, 2, 4⟩ : RotaryEncoder).last_active +
       (⟨5, 3, 7, 2, 4⟩ : RotaryEncoder).reset_timeout < 9) ∧
    RotaryEncoder.get_delta true 8 8 32 ⟨5, 3, 7, 2, 4⟩ 7 9 =
      (0, ⟨5, 7, 7, 2, 4⟩) :=
  ⟨⟨by decide, by decide, by decide⟩,
   claim_C1 true 8 8 32 ⟨5, 3, 7, 2, 4⟩ 9 (by decide) (by decide) (by decide)⟩

/-- Claim C4, counterexample.  With a 32-bit Tick, `last_active = 2^32 - 1`
and `reset_timeout = 1`, the exact sum `last_active + reset_timeout = 2^32`
exceeds `ts = 5`, so by the claim the re-reference branch must not be taken;
but the sum wraps to `0` in the Tick type and the checked subtraction
`0 - 5` fails, so the branch is taken.  The claimed exactness for all
representable values is therefore false. -/
theorem claim_C4_counterexample :
    RotaryEncoder.timedOut 32 ⟨4294967295, 3, 7, 1, 1⟩ 5 ∧
    ¬ ((⟨4294967295, 3, 7, 1, 1⟩ : RotaryEncoder).last_active +
        (⟨4294967295, 3, 7, 1, 1⟩ : RotaryEncoder).reset_timeout < 5) := by
  constructor
  · decide
  · decide

/-- Claim C4, amended.  The re-reference branch of `get_delta` is taken if
and only if `ts` exceeds the wrapped sum `(last_active + reset_timeout) mod
2^wt`.  Whenever the exact sum `last_active + reset_timeout` does not
overflow the Tick type this is exactly: `ts` exceeds the sum as unbounded
integers; and in all cases `ts` exceeding the exact sum implies the branch is
taken — the checked-subtraction formulation never produces a false negative.
(When the sum overflows, the branch can additionally be taken spuriously.) -/
theorem claim_C4_amended (wt : Nat) (e : RotaryEncoder) (ts : Nat) :
    (RotaryEncoder.timedOut wt e ts ↔
      tickAdd wt e.last_active e.reset_timeout < ts) ∧
    (e.last_active + e.reset_timeout < 2 ^ wt →
      (RotaryEncoder.timedOut wt e ts ↔
        e.last_active + e.reset_timeout < ts)) ∧
    (e.last_active + e.reset_timeout < ts → RotaryEncoder.timedOut wt e ts) := by
  have h1 := timedOut_iff wt e ts
  have hta : tickAdd wt e.last_active e.reset_timeout
      = (e.last_active + e.reset_timeout) % 2 ^ wt := rfl
  refine ⟨h1, ?_, ?_⟩
  · intro hov
    rw [h1, hta, Nat.mod_eq_of_lt hov]
  · intro hlt
    rw [h1, hta]
    have := Nat.mod_le (e.last_active + e.reset_timeout) (2 ^ wt)
    omega

theorem claim_C4_amended_witness :
    ((3:Nat) + 10 < 2 ^ 32) ∧
    (RotaryEncoder.timedOut 32 ⟨3, 0, 0, 10, 1⟩ 14 ↔ (3:Nat) + 10 < 14) :=
  ⟨by decide, (claim_C4_amended 32 ⟨3, 0, 0, 10, 1⟩ 14).2.1 (by decide)⟩

/-- Claim C9: movement bookkeeping frame.  On every call to `get_delta`,
`last_active` is set to `ts` and `last_real_raw_position` to the canonical
pattern of `raw_position` exactly when that pattern differs from the stored
`last_real_raw_position`; when they agree, both fields are left unchanged, so
stationary samples never reset the staleness clock. -/
theorem claim_C9 (ps : Bool) (wp wd wt : Nat) (e : RotaryEncoder)
    (raw : Int) (ts : Nat) :
    (e.last_real_raw_position ≠ raw % 2 ^ wp →
      (RotaryEncoder.get_delta ps wp wd wt e raw ts).2.last_active = ts ∧
      (RotaryEncoder.get_delta ps wp wd wt e raw ts).2.last_real_raw_position
        = raw % 2 ^ wp) ∧
    (e.last_real_raw_position = raw % 2 ^ wp →
      (RotaryEncoder.get_delta ps wp wd wt e raw ts).2.last_active = e.last_active ∧
      (RotaryEncoder.get_delta ps wp wd wt e raw ts).2.last_real_raw_position
        = e.last_real_raw_position) := by
  unfold RotaryEncoder.get_delta
  constructor <;> intro h <;> split_ifs <;> simp_all

theorem claim_C9_witness :
    ((⟨0, 0, 0, 10, 1⟩ : RotaryEncoder).last_real_raw_position ≠ (5:Int) % 2 ^ 8) ∧
    ((RotaryEncoder.get_delta true 8 8 32 ⟨0, 0, 0, 10, 1⟩ 5 1).2.last_active = 1 ∧
     (RotaryEncoder.get_delta true 8 8 32 ⟨0, 0, 0, 10, 1⟩ 5 1).2.last_real_raw_position
       = (5:Int) % 2 ^ 8) :=
  ⟨by decide, (claim_C9 true 8 8 32 ⟨0, 0, 0, 10, 1⟩ 5 1).1 (by decide)⟩

/-- Claim C6: unit-divisor identity.  For a tracker with divisor 1, every
call to `get_delta` returns exactly the wraparound difference between the raw
position and the effective reference in force for the call (the stored
`last_effective_raw_position` when the timeout has not expired, the
re-referenced `last_real_raw_position` when it has), reinterpreted as a
signed Delta; concretely, with 8-bit unsigned Position, divisor 1 and timeout
10, a fresh tracker's call `get_delta(255, 1)` returns `-1`, not `+255`. -/
theorem claim_C6 :
    (∀ (ps : Bool) (wp wd wt : Nat) (e : RotaryEncoder) (raw : Int) (ts : Nat),
      e.div = 1 → ts ≤ tickAdd wt e.last_active e.reset_timeout →
      (RotaryEncoder.get_delta ps wp wd wt e raw ts).1 =
        posToDelta ps wp wd (posWrapSub wp raw e.last_effective_raw_position)) ∧
    (∀ (ps : Bool) (wp wd wt : Nat) (e : RotaryEncoder) (raw : Int) (ts : Nat),
      e.div = 1 → tickAdd wt e.last_active e.reset_timeout < ts →
      (RotaryEncoder.get_delta ps wp wd wt e raw ts).1 =
        posToDelta ps wp wd (posWrapSub wp raw e.last_real_raw_position)) ∧
    (RotaryEncoder.get_delta false 8 8 32 (RotaryEncoder.new 1 10) 255 1).1 = -1 := by
  refine ⟨?_, ?_, by decide⟩
  · intro ps wp wd wt e raw ts hdiv hnt
    rw [get_delta_eq_no_timeout ps wp wd wt e raw ts hnt]
    show (posToDelta ps wp wd
      (posWrapSub wp raw e.last_effective_raw_position)).tdiv e.div = _
    rw [hdiv, Int.tdiv_one]
  · intro ps wp wd wt e raw ts hdiv ht
    rw [get_delta_eq_timeout ps wp wd wt e raw ts ht]
    show (posToDelta ps wp wd
      (posWrapSub wp raw e.last_real_raw_position)).tdiv e.div = _
    rw [hdiv, Int.tdiv_one]

theorem claim_C6_witness :
    ((RotaryEncoder.new 1 10).div = 1 ∧
     (1:Nat) ≤ tickAdd 32 (RotaryEncoder.new 1 10).last_active
       (RotaryEncoder.new 1 10).reset_timeout) ∧
    (RotaryEncoder.get_delta true 8 8 32 (RotaryEncoder.new 1 10) 7 1).1 =
      posToDelta true 8 8
        (posWrapSub 8 7 (RotaryEncoder.new 1 10).last_effective_raw_position) :=
  ⟨⟨rfl, by decide⟩,
   claim_C6.1 true 8 8 32 (RotaryEncoder.new 1 10) 7 1 rfl (by decide)⟩

/-- Claim C10: a stationary call is a complete no-op on the state.  For
every tracker state with canonical position patterns satisfying the
reference-proximity invariant, a call with raw position equal to
`last_real_raw_position` and a timestamp within the timeout window leaves
every state field unchanged, including `last_effective_raw_position`:
the retained remainder has absolute value below the divisor, so the
reference advances by `delta - remainder = 0`. -/
theorem claim_C10 (ps : Bool) (wp wd wt : Nat) (e : RotaryEncoder) (ts : Nat)
    (heff0 : 0 ≤ e.last_effective_raw_position)
    (heff1 : e.last_effective_raw_position < 2 ^ wp)
    (hreal0 : 0 ≤ e.last_real_raw_position)
    (hreal1 : e.last_real_raw_position < 2 ^ wp)
    (hinv : |posToDelta ps wp wd
        (posWrapSub wp e.last_real_raw_position e.last_effective_raw_position)| < e.div)
    (hnt : ts ≤ tickAdd wt e.last_active e.reset_timeout) :
    (RotaryEncoder.get_delta ps wp wd wt e e.last_real_raw_position ts).2 = e := by
  rw [stationary_call ps wp wd wt e ts heff0 heff1 hreal0 hreal1 hinv hnt]

theorem claim_C10_witness :
    (((0:Int) ≤ 10 ∧ (10:Int) < 2 ^ 8 ∧ (0:Int) ≤ 12 ∧ (12:Int) < 2 ^ 8) ∧
     |posToDelta true 8 8 (posWrapSub 8 12 10)| < 4 ∧
     (9:Nat) ≤ tickAdd 32 3 7) ∧
    (RotaryEncoder.get_delta true 8 8 32 ⟨3, 10, 12, 7, 4⟩ 12 9).2
      = ⟨3, 10, 12, 7, 4⟩ :=
  ⟨⟨⟨by decide, by decide, by decide, by decide⟩, by decide, by decide⟩,
   claim_C10 true 8 8 32 ⟨3, 10, 12, 7, 4⟩ 9 (by decide) (by decide) (by decide)
     (by decide) (by decide) (by decide)⟩

/-- Claim C8: zero movement.  For every tracker state with canonical
position patterns satisfying the reference-proximity invariant (which holds
in every reachable state), repeatedly calling `get_delta` with the fixed raw
position `last_real_raw_position` and strictly increasing timestamps that
stay within the timeout window returns `0` on every call. -/
theorem claim_C8 (ps : Bool) (wp wd wt : Nat) (e : RotaryEncoder)
    (ts : Nat → Nat) (n : Nat)
    (heff0 : 0 ≤ e.last_effective_raw_position)
    (heff1 : e.last_effective_raw_position < 2 ^ wp)
    (hreal0 : 0 ≤ e.last_real_raw_position)
    (hreal1 : e.last_real_raw_position < 2 ^ wp)
    (hinv : |posToDelta ps wp wd
        (posWrapSub wp e.last_real_raw_position e.last_effective_raw_position)| < e.div)
    (hts : ∀ i, i < n → ts i ≤ tickAdd wt e.last_active e.reset_timeout)
    (hmono : ∀ i, i + 1 < n → ts i < ts (i + 1)) :
    ∀ i, i < n →
      outN ps wp wd wt (fun _ => e.last_real_raw_position) ts e i = 0 := by
  have hstate : ∀ i, i ≤ n →
      callN ps wp wd wt (fun _ => e.last_real_raw_position) ts e i = e := by
    intro i
    induction i with
    | zero => intro _; rfl
    | succ k ih =>
      intro hk
      have hck := ih (by omega)
      simp only [callN]
      rw [hck,
        stationary_call ps wp wd wt e (ts k) heff0 heff1 hreal0 hreal1 hinv
          (hts k (by omega))]
  intro i hi
  unfold outN
  rw [hstate i (by omega),
    stationary_call ps wp wd wt e (ts i) heff0 heff1 hreal0 hreal1 hinv (hts i hi)]

theorem claim_C8_witness :
    ((∀ i, i < 3 → (3 + i : Nat) ≤ tickAdd 32 3 7) ∧
     |posToDelta true 8 8 (posWrapSub 8 12 10)| < 4) ∧
    (∀ i, i < 3 →
      outN true 8 8 32 (fun _ => (12:Int)) (fun i => 3 + i) ⟨3, 10, 12, 7, 4⟩ i = 0) :=
  ⟨⟨fun i hi => by show 3 + i ≤ 10; omega, by decide⟩,
   claim_C8 true 8 8 32 ⟨3, 10, 12, 7, 4⟩ (fun i => 3 + i) 3 (by decide) (by decide)
     (by decide) (by decide) (by decide)
     (fun i hi => by show 3 + i ≤ 10; omega)
     (fun i hi => by show 3 + i < 3 + (i + 1); omega)⟩

/-- Claim C5: totality / no-panic.  `get_delta` is a total function (it is
a Lean function over total modular arithmetic: Position arithmetic wraps,
the Position-to-Delta cast is defined for every wrapped difference, and the
Tick addition and checked subtraction are total).  Moreover, with a positive
divisor and in-range inputs every produced value is representable in its
type: the returned Delta and the whole-division part `delta - remainder` lie
in the signed `wd`-bit range, the updated position fields are canonical
`wp`-bit patterns, the updated `last_active` is a `wt`-bit tick, and the
configuration fields are untouched — so no step of the source computation
can overflow its type or fault. -/
theorem claim_C5 (ps : Bool) (wp wd wt : Nat) (e : RotaryEncoder)
    (raw : Int) (ts : Nat)
    (hdiv : 0 < e.div)
    (hreal0 : 0 ≤ e.last_real_raw_position)
    (hreal1 : e.last_real_raw_position < 2 ^ wp)
    (hla : e.last_active < 2 ^ wt) (hts : ts < 2 ^ wt) :
    (-(2 ^ (wd - 1)) ≤ (RotaryEncoder.get_delta ps wp wd wt e raw ts).1 ∧
      (RotaryEncoder.get_delta ps wp wd wt e raw ts).1 < 2 ^ (wd - 1)) ∧
    (0 ≤ (RotaryEncoder.get_delta ps wp wd wt e raw ts).2.last_effective_raw_position ∧
      (RotaryEncoder.get_delta ps wp wd wt e raw ts).2.last_effective_raw_position
        < 2 ^ wp) ∧
    (0 ≤ (RotaryEncoder.get_delta ps wp wd wt e raw ts).2.last_real_raw_position ∧
      (RotaryEncoder.get_delta ps wp wd wt e raw ts).2.last_real_raw_position
        < 2 ^ wp) ∧
    (RotaryEncoder.get_delta ps wp wd wt e raw ts).2.last_active < 2 ^ wt ∧
    (RotaryEncoder.get_delta ps wp wd wt e raw ts).2.reset_timeout = e.reset_timeout ∧
    (RotaryEncoder.get_delta ps wp wd wt e raw ts).2.div = e.div ∧
    (∀ d : Int, -(2 ^ (wd - 1)) ≤ d → d < 2 ^ (wd - 1) →
      -(2 ^ (wd - 1)) ≤ d - d.tmod e.div ∧ d - d.tmod e.div < 2 ^ (wd - 1)) := by
  have key : ∀ base : Int,
      -(2 ^ (wd - 1)) ≤ (posToDelta ps wp wd (posWrapSub wp raw base)).tdiv e.div ∧
      (posToDelta ps wp wd (posWrapSub wp raw base)).tdiv e.div < 2 ^ (wd - 1) := by
    intro base
    have hb := posToDelta_bounds ps wp wd (posWrapSub wp raw base)
    exact tdiv_bounds hdiv hb.1 hb.2
  have keyeff : ∀ base d : Int,
      0 ≤ posWrapAdd wp base (deltaToPos wp d) ∧
      posWrapAdd wp base (deltaToPos wp d) < 2 ^ wp := by
    intro base d
    unfold posWrapAdd
    exact ⟨Int.emod_nonneg _ (two_pow_pos wp).ne',
      Int.emod_lt_of_pos _ (two_pow_pos wp)⟩
  rcases le_or_lt ts (tickAdd wt e.last_active e.reset_timeout) with hnt | ht
  · rw [get_delta_eq_no_timeout ps wp wd wt e raw ts hnt]
    refine ⟨key _, keyeff _ _, ?_, ?_, rfl, rfl,
      fun d h1 h2 => sub_tmod_bounds hdiv h1 h2⟩
    · split_ifs with h
      · exact ⟨Int.emod_nonneg _ (two_pow_pos wp).ne',
          Int.emod_lt_of_pos _ (two_pow_pos wp)⟩
      · exact ⟨hreal0, hreal1⟩
    · split_ifs with h
      · exact hts
      · exact hla
  · rw [get_delta_eq_timeout ps wp wd wt e raw ts ht]
    refine ⟨key _, keyeff _ _, ?_, ?_, rfl, rfl,
      fun d h1 h2 => sub_tmod_bounds hdiv h1 h2⟩
    · split_ifs with h
      · exact ⟨Int.emod_nonneg _ (two_pow_pos wp).ne',
          Int.emod_lt_of_pos _ (two_pow_pos wp)⟩
      · exact ⟨hreal0, hreal1⟩
    · split_ifs with h
      · exact hts
      · exact hla

theorem claim_C5_witness :
    ((0:Int) < 4 ∧ (0:Nat) < 2 ^ 32 ∧ (1:Nat) < 2 ^ 32) ∧
    (-(2 ^ 7) ≤ (RotaryEncoder.get_delta true 8 8 32 ⟨0, 0, 0, 10, 4⟩ 3 1).1 ∧
     (RotaryEncoder.get_delta true 8 8 32 ⟨0, 0, 0, 10, 4⟩ 3 1).1 < 2 ^ 7) :=
  ⟨⟨by decide, by norm_num, by norm_num⟩,
   (claim_C5 true 8 8 32 ⟨0, 0, 0, 10, 4⟩ 3 1 (by decide)
     (by decide) (by decide) (by norm_num) (by norm_num)).1⟩

/-- Claim C3: reference-proximity invariant.  Immediately after every call
to `get_delta` that did not take the timeout re-reference branch, the wrapped
difference between the current raw position and the updated
`last_effective_raw_position`, reinterpreted as a signed Delta, has absolute
value strictly less than the (positive, width-representable) divisor. -/
theorem claim_C3 (ps : Bool) (wp wd wt : Nat) (e : RotaryEncoder)
    (raw : Int) (ts : Nat)
    (hwp : 0 < wp) (hwd : 0 < wd)
    (hcast : wd ≤ wp ∨ ps = true)
    (hdiv0 : 0 < e.div)
    (hdivp : e.div ≤ 2 ^ (wp - 1)) (hdivd : e.div ≤ 2 ^ (wd - 1))
    (hnt : ts ≤ tickAdd wt e.last_active e.reset_timeout) :
    |posToDelta ps wp wd (posWrapSub wp raw
        (RotaryEncoder.get_delta ps wp wd wt e raw ts).2.last_effective_raw_position)|
      < e.div := by
  rw [get_delta_eq_no_timeout ps wp wd wt e raw ts hnt]
  dsimp only
  set q := posWrapSub wp raw e.last_effective_raw_position with hqdef
  have hq0 : 0 ≤ q := Int.emod_nonneg _ (two_pow_pos wp).ne'
  have hq1 : q < 2 ^ wp := Int.emod_lt_of_pos _ (two_pow_pos wp)
  set m := min wp wd with hmdef
  have hm0 : 0 < m := lt_min hwp hwd
  have hmwp : m ≤ wp := min_le_left _ _
  have hdm : e.div ≤ 2 ^ (m - 1) := by
    rcases le_total wp wd with h | h
    · rw [hmdef, min_eq_left h]; exact hdivp
    · rw [hmdef, min_eq_right h]; exact hdivd
  set D := posToDelta ps wp wd q with hDdef
  have hDeq : D = toSigned m (q % 2 ^ m) := posToDelta_eq_min ps wp wd q hcast hq0 hq1
  have hDmod : D % 2 ^ m = q % 2 ^ m := by
    rw [hDeq, toSigned_emod, Int.emod_emod_of_dvd _ dvd_rfl]
  set rem := D.tmod e.div with hremdef
  have hrem := tmod_bounds D hdiv0
  have hq'mod : posWrapSub wp raw (posWrapAdd wp e.last_effective_raw_position
      (deltaToPos wp (D - rem))) % 2 ^ m = rem % 2 ^ m := by
    apply ref_advance_emod wp m hmwp
    rw [hDmod, hqdef]
    unfold posWrapSub
    exact Int.emod_emod_of_dvd _ (pow_dvd_pow 2 hmwp)
  set q' := posWrapSub wp raw (posWrapAdd wp e.last_effective_raw_position
    (deltaToPos wp (D - rem))) with hq'def
  have hq'0 : 0 ≤ q' := Int.emod_nonneg _ (two_pow_pos wp).ne'
  have hq'1 : q' < 2 ^ wp := Int.emod_lt_of_pos _ (two_pow_pos wp)
  have hfinal : posToDelta ps wp wd q' = rem := by
    rw [posToDelta_eq_min ps wp wd q' hcast hq'0 hq'1, ← hmdef, hq'mod]
    exact toSigned_emod_cancel hm0 (by linarith [hrem.1]) (by linarith [hrem.2])
  rw [hfinal, abs_lt]
  exact ⟨hrem.1, hrem.2⟩

theorem claim_C3_witness :
    ((0:Nat) < 8 ∧ (0:Int) < 4 ∧
     (4:Int) ≤ 2 ^ 7 ∧ (1:Nat) ≤ tickAdd 32 0 10) ∧
    |posToDelta true 8 8 (posWrapSub 8 3
        (RotaryEncoder.get_delta true 8 8 32 ⟨0, 0, 0, 10, 4⟩ 3 1).2.last_effective_raw_position)|
      < 4 :=
  ⟨⟨by decide, by decide, by decide, by decide⟩,
   claim_C3 true 8 8 32 ⟨0, 0, 0, 10, 4⟩ 3 1 (by decide) (by decide) (Or.inl (by decide))
     (by decide) (by decide) (by decide) (by decide)⟩

/-- One call of the division-granularity run: from a zero-remainder state at
reference `p0` after `k` unit steps of direction `σ`, the `k+1`-st unit step
returns `σ` exactly when `k + 1 = D`, else `0`. -/
theorem run_step (ps : Bool) (wp wd wt : Nat) (D rt : Nat) (p0 σ : Int)
    (ts : Nat → Nat) (k : Nat) (r : Int)
    (hσ : σ = 1 ∨ σ = -1)
    (hD : 1 ≤ D) (hDp : (D:Int) < 2 ^ (wp - 1)) (hDd : (D:Int) < 2 ^ (wd - 1))
    (hcast : wd ≤ wp ∨ ps = true)
    (hp0 : 0 ≤ p0) (hp1 : p0 < 2 ^ wp)
    (htw : ts k + rt < 2 ^ wt) (hto : ts (k + 1) ≤ ts k + rt)
    (hk : k < D)
    (hr : r % 2 ^ wp = (p0 + σ * ((k:Int) + 1)) % 2 ^ wp) :
    RotaryEncoder.get_delta ps wp wd wt
        ⟨ts k, p0, (p0 + σ * (k:Int)) % 2 ^ wp, rt, (D:Int)⟩ r (ts (k + 1)) =
      ((if k + 1 = D then σ else 0),
       ⟨ts (k + 1),
        if k + 1 = D then (p0 + σ * (D:Int)) % 2 ^ wp else p0,
        (p0 + σ * ((k:Int) + 1)) % 2 ^ wp, rt, (D:Int)⟩) := by
  have hwp2 : 2 ≤ wp := by
    by_contra h
    have h1 : wp - 1 = 0 := by omega
    rw [h1] at hDp
    norm_num at hDp
    omega
  have hwd2 : 2 ≤ wd := by
    by_contra h
    have h1 : wd - 1 = 0 := by omega
    rw [h1] at hDd
    norm_num at hDd
    omega
  set m := min wp wd with hmdef
  have hm0 : 0 < m := lt_min (by omega) (by omega)
  have hmwp : m ≤ wp := min_le_left _ _
  have hDm : (D:Int) < 2 ^ (m - 1) := by
    rcases le_total wp wd with h | h
    · rw [hmdef, min_eq_left h]; exact hDp
    · rw [hmdef, min_eq_right h]; exact hDd
  have hkD : ((k:Int) + 1) ≤ (D:Int) := by exact_mod_cast hk
  have hDne : (D:Int) ≠ 0 := by
    have h : (0:Int) < (D:Int) := by exact_mod_cast hD
    omega
  have hM4 : (4:Int) ≤ 2 ^ wp := by
    calc (4:Int) = 2 ^ 2 := by norm_num
    _ ≤ 2 ^ wp := pow_le_pow_right₀ (by norm_num) hwp2
  have hnt : ts (k + 1) ≤ tickAdd wt (ts k) rt := by
    show ts (k + 1) ≤ (ts k + rt) % 2 ^ wt
    rw [Nat.mod_eq_of_lt htw]
    exact hto
  rw [get_delta_eq_no_timeout ps wp wd wt _ r (ts (k + 1)) hnt]
  dsimp only
  have hq : posWrapSub wp r p0 = (σ * ((k:Int) + 1)) % 2 ^ wp := by
    rw [← posWrapSub_emod_left wp r p0, hr, posWrapSub_emod_left]
    unfold posWrapSub
    congr 1
    ring
  have hpos2 := two_pow_pos (m - 1)
  have hdelta : posToDelta ps wp wd ((σ * ((k:Int) + 1)) % 2 ^ wp)
      = σ * ((k:Int) + 1) := by
    rw [posToDelta_eq_min ps wp wd _ hcast
        (Int.emod_nonneg _ (two_pow_pos wp).ne') (Int.emod_lt_of_pos _ (two_pow_pos wp)),
      ← hmdef, Int.emod_emod_of_dvd _ (pow_dvd_pow 2 hmwp)]
    apply toSigned_emod_cancel hm0
    · rcases hσ with rfl | rfl <;> [linarith; linarith]
    · rcases hσ with rfl | rfl <;> [linarith; linarith]
  have hne : ((p0 + σ * (k:Int)) % 2 ^ wp) ≠ r % 2 ^ wp := by
    rw [hr]
    intro heq
    have hdvd : ((2:Int) ^ wp) ∣ ((p0 + σ * ((k:Int) + 1)) - (p0 + σ * (k:Int))) :=
      Int.ModEq.dvd heq
    have hsub : (p0 + σ * ((k:Int) + 1)) - (p0 + σ * (k:Int)) = σ := by ring
    rw [hsub] at hdvd
    have h1 : ((2:Int) ^ wp) ∣ 1 := by
      rcases hσ with rfl | rfl
      · exact hdvd
      · exact (dvd_neg).mp hdvd
    have h2 : (2:Int) ^ wp ≤ 1 := Int.le_of_dvd (by norm_num) h1
    omega
  rw [hq, hdelta]
  simp only [if_pos hne]
  rw [hr]
  by_cases hkD1 : k + 1 = D
  · have hkDi : ((k:Int) + 1) = (D:Int) := by exact_mod_cast hkD1
    rw [hkDi]
    simp only [if_pos hkD1]
    have htd : (σ * (D:Int)).tdiv (D:Int) = σ := by
      rcases hσ with rfl | rfl
      · rw [one_mul, Int.tdiv_self hDne]
      · rw [neg_one_mul, Int.neg_tdiv, Int.tdiv_self hDne]
    have htm : (σ * (D:Int)).tmod (D:Int) = 0 := by
      rcases hσ with rfl | rfl
      · rw [one_mul, Int.tmod_self]
      · rw [neg_one_mul, tmod_neg_left, Int.tmod_self, neg_zero]
    rw [htd, htm, sub_zero]
    unfold posWrapAdd deltaToPos
    rw [emod_add_emod_right]
  · simp only [if_neg hkD1]
    have hlt : k + 1 < D := by omega
    have hnat : (σ * ((k:Int) + 1)).natAbs = k + 1 := by
      have hc : ((k:Int) + 1) = ((k + 1 : Nat) : Int) := by push_cast; ring
      rcases hσ with rfl | rfl
      · rw [one_mul, hc, Int.natAbs_ofNat]
      · rw [neg_one_mul, Int.natAbs_neg, hc, Int.natAbs_ofNat]
    have hsmall : (σ * ((k:Int) + 1)).natAbs < ((D:Int)).natAbs := by
      rw [hnat, Int.natAbs_ofNat]
      exact hlt
    rw [tdiv_small hsmall, tmod_small hsmall, sub_self]
    unfold posWrapAdd deltaToPos
    rw [Int.zero_emod, add_zero, Int.emod_eq_of_lt hp0 hp1]

/-- State evolution of the division-granularity run: after `k < D` unit steps
of direction `σ` the reference is still `p0` and the divisor output has not
yet fired. -/
theorem run_state (ps : Bool) (wp wd wt : Nat) (D rt : Nat) (p0 σ : Int)
    (ts : Nat → Nat) (f : Nat → Int)
    (hσ : σ = 1 ∨ σ = -1)
    (hD : 1 ≤ D) (hDp : (D:Int) < 2 ^ (wp - 1)) (hDd : (D:Int) < 2 ^ (wd - 1))
    (hcast : wd ≤ wp ∨ ps = true)
    (hp0 : 0 ≤ p0) (hp1 : p0 < 2 ^ wp)
    (hts : ∀ n, n < D → ts n + rt < 2 ^ wt ∧ ts (n + 1) ≤ ts n + rt)
    (hf : ∀ n, f n % 2 ^ wp = (p0 + σ * ((n:Int) + 1)) % 2 ^ wp)
    (k : Nat) :
    k < D →
      callN ps wp wd wt f (fun n => ts (n + 1)) ⟨ts 0, p0, p0, rt, (D:Int)⟩ k
        = ⟨ts k, p0, (p0 + σ * (k:Int)) % 2 ^ wp, rt, (D:Int)⟩ := by
  induction k with
  | zero =>
    intro _
    have h0 : (p0 + σ * ((0:Nat):Int)) % 2 ^ wp = p0 := by
      simp only [Nat.cast_zero, mul_zero, add_zero]
      exact Int.emod_eq_of_lt hp0 hp1
    simp only [callN]
    rw [h0]
  | succ k ih =>
    intro hk
    have hk' : k < D := by omega
    simp only [callN]
    rw [ih hk']
    rw [run_step ps wp wd wt D rt p0 σ ts k (f k) hσ hD hDp hDd hcast hp0 hp1
      (hts k hk').1 (hts k hk').2 hk' (hf k)]
    simp only [if_neg (by omega : ¬ k + 1 = D)]
    push_cast
    rfl

/-- Claim C2: division granularity.  For every divisor `D ≥ 1` representable
in one rotation (`D < 2^(wp-1)` and `D < 2^(wd-1)`), starting from a
tracking state with zero retained remainder (reference equal to the real
position `p0`), a run of `D` consecutive calls each advancing the raw
position by one unit (each a distinct raw value, each timestamp within the
timeout) returns `+1` on the `D`-th call and `0` on the first `D - 1` calls;
symmetrically, `D` consecutive unit decrements return `-1` on the `D`-th
call and `0` on the others. -/
theorem claim_C2 (ps : Bool) (wp wd wt : Nat) (D rt : Nat) (p0 : Int)
    (ts : Nat → Nat)
    (hD : 1 ≤ D) (hDp : (D:Int) < 2 ^ (wp - 1)) (hDd : (D:Int) < 2 ^ (wd - 1))
    (hcast : wd ≤ wp ∨ ps = true)
    (hp0 : 0 ≤ p0) (hp1 : p0 < 2 ^ wp)
    (hts : ∀ n, n < D → ts n + rt < 2 ^ wt ∧ ts (n + 1) ≤ ts n + rt) :
    (∀ n, n < D →
      outN ps wp wd wt (fun k => p0 + ((k:Int) + 1)) (fun n => ts (n + 1))
          ⟨ts 0, p0, p0, rt, (D:Int)⟩ n = if n + 1 = D then 1 else 0) ∧
    (∀ n, n < D →
      outN ps wp wd wt (fun k => p0 - ((k:Int) + 1)) (fun n => ts (n + 1))
          ⟨ts 0, p0, p0, rt, (D:Int)⟩ n = if n + 1 = D then -1 else 0) := by
  constructor
  · intro n hn
    have hf : ∀ j : Nat, (p0 + ((j:Int) + 1)) % 2 ^ wp
        = (p0 + 1 * ((j:Int) + 1)) % 2 ^ wp := by
      intro j
      congr 1
      ring
    unfold outN
    rw [run_state ps wp wd wt D rt p0 1 ts _ (Or.inl rfl) hD hDp hDd hcast hp0 hp1
      hts hf n hn]
    rw [run_step ps wp wd wt D rt p0 1 ts n _ (Or.inl rfl) hD hDp hDd hcast hp0 hp1
      (hts n hn).1 (hts n hn).2 hn (hf n)]
  · intro n hn
    have hf : ∀ j : Nat, (p0 - ((j:Int) + 1)) % 2 ^ wp
        = (p0 + (-1) * ((j:Int) + 1)) % 2 ^ wp := by
      intro j
      congr 1
      ring
    unfold outN
    rw [run_state ps wp wd wt D rt p0 (-1) ts _ (Or.inr rfl) hD hDp hDd hcast hp0 hp1
      hts hf n hn]
    rw [run_step ps wp wd wt D rt p0 (-1) ts n _ (Or.inr rfl) hD hDp hDd hcast hp0 hp1
      (hts n hn).1 (hts n hn).2 hn (hf n)]

theorem claim_C2_witness :
    ((1:Nat) ≤ 4 ∧ ((4:Nat):Int) < 2 ^ 7 ∧
     (∀ n : Nat, n < 4 → n + 10 < 2 ^ 32 ∧ n + 1 ≤ n + 10)) ∧
    ((∀ n, n < 4 →
      outN true 8 8 32 (fun k => (0:Int) + ((k:Int) + 1)) (fun n => n + 1)
          ⟨0, 0, 0, 10, ((4:Nat):Int)⟩ n = if n + 1 = 4 then 1 else 0) ∧
     (∀ n, n < 4 →
      outN true 8 8 32 (fun k => (0:Int) - ((k:Int) + 1)) (fun n => n + 1)
          ⟨0, 0, 0, 10, ((4:Nat):Int)⟩ n = if n + 1 = 4 then -1 else 0)) :=
  ⟨⟨by norm_num, by decide,
    fun n hn => ⟨by have h : (2:Nat) ^ 32 = 4294967296 := by norm_num
                    omega,
                 by omega⟩⟩,
   claim_C2 true 8 8 32 4 10 0 (fun n => n) (by norm_num) (by decide) (by decide)
     (Or.inl (by norm_num)) (by norm_num) (by decide)
     (fun n hn => ⟨by show n + 10 < 2 ^ 32
                      have h : (2:Nat) ^ 32 = 4294967296 := by norm_num
                      omega,
                   by show n + 1 ≤ n + 10
                      omega⟩)⟩
